import Mathlib

/-
Verification development for the News-Ai-Judge FastAPI server (src/server.py).

The embedding is shallow:
  * Python / JSON values are modelled by the inductive type `Json`; Python
    dicts are insertion-ordered association lists (`List (String × Json)`),
    which matches CPython dict semantics (and `json.loads`, which produces
    dicts with unique keys in document order).  Lookup and replacement use
    first-match semantics, which coincides with Python on duplicate-free
    key lists.
  * Fallible Python operations (attribute errors on non-dicts, slicing of
    non-sliceables, raised exceptions from external calls) are modelled in
    the `Except String` monad; the error string stands for `str(e)`.
  * The MongoDB collection and the OpenAI client are external collaborators
    and are modelled as oracles (`Store`, `LlmOracle`).  The model response
    body is represented by the outcome of `json.loads` on its content
    (`Except Unit Json`): the only thing `analyze_with_llm` ever does with
    the content string is parse it as JSON.
  * The in-memory job registry `JOBS` is modelled by the trace of registry
    writes a single `run_review` execution performs (`RunOutcome.trace`):
    every assignment to `JOBS[job_id]` or to its `progress` key appends the
    resulting registry entry, so run states observable by concurrent pollers
    appear in order.  External invocations (store fetch, analyzer calls)
    are logged in `RunOutcome.effects`.
-/

namespace NewsJudge

/-- JSON values, as produced by `json.loads`.  Objects keep key order,
mirroring CPython dicts.  Python `None` is `Json.null`. -/
inductive Json where
  | null : Json
  | bool (b : Bool) : Json
  | num (n : Int) : Json
  | str (s : String) : Json
  | arr (elems : List Json) : Json
  | obj (fields : List (String × Json)) : Json

/-- First-match lookup in an object's field list (Python `d[k]` / `d.get(k)`
on duplicate-free key lists). -/
def objGet : List (String × Json) → String → Option Json
  | [], _ => none
  | (k1, v) :: rest, k => if k1 = k then some v else objGet rest k

/-- Python `v.get(k)`: `None` default when the key is absent, `AttributeError`
when `v` is not a dict. -/
def dictGet (v : Json) (k : String) : Except String Json :=
  match v with
  | .obj fs => .ok ((objGet fs k).getD .null)
  | _ => .error "AttributeError: get"

/-- Python truthiness of a JSON value. -/
def truthy : Json → Bool
  | .null => false
  | .bool b => b
  | .num n => n != 0
  | .str s => s != ""
  | .arr xs => !xs.isEmpty
  | .obj fs => !fs.isEmpty

/-- Python `x[:5]`: defined on lists and strings, `TypeError` otherwise. -/
def slice5 : Json → Except String Json
  | .arr xs => .ok (.arr (xs.take 5))
  | .str s => .ok (.str (String.mk (s.data.take 5)))
  | _ => .error "TypeError: unsubscriptable"

/-- Boolean discriminator: is this JSON value a boolean? -/
def isBool : Json → Bool
  | .bool _ => true
  | _ => false

/-- Boolean discriminator: is this JSON value a list? -/
def isArr : Json → Bool
  | .arr _ => true
  | _ => false

/-- Whitespace collapsing for `re.sub(r"\s+", " ", s)`: every maximal run of
whitespace becomes a single space.  The flag records whether the previous
character was whitespace. -/
def collapseWsGo : Bool → List Char → List Char
  | _, [] => []
  | prevWs, c :: rest =>
    if c.isWhitespace then
      if prevWs then collapseWsGo true rest
      else ' ' :: collapseWsGo true rest
    else c :: collapseWsGo false rest

/-- `trunc` from server.py: `re.sub(r"\s+", " ", s or "")[:n]`. -/
def trunc (s : String) (n : Nat) : String :=
  String.mk ((collapseWsGo false s.data).take n)

/-- The `PRETTY` table from server.py: category identifier → display label. -/
def PRETTY : List (String × String) :=
  [("discrimination", "차별적 용어"),
   ("defamation", "특정인물 비방"),
   ("advertisement", "광고성")]

/-- Python `PRETTY[k]` combined with `k in PRETTY`. -/
def lookupLabel (k : String) : Option String :=
  match PRETTY.find? (fun p => p.1 = k) with
  | some p => some p.2
  | none => none

/-- The default inserted for a missing category:
`{"flag": False, "evidence": []}`. -/
def defaultCatFields : List (String × Json) :=
  [("flag", Json.bool false), ("evidence", Json.arr [])]

/-- The default category object. -/
def defaultCat : Json := Json.obj defaultCatFields

/-- Python `d.setdefault(k, v)` restricted to its effect on the dict
(returns the updated dict): appends `(k, v)` at the end when `k` is absent. -/
def setdefaultObj (fs : List (String × Json)) (k : String) (v : Json) :
    List (String × Json) :=
  match objGet fs k with
  | some _ => fs
  | none => fs ++ [(k, v)]

/-- The combined effect of `data[k].setdefault("flag", False)` and
`data[k].setdefault("evidence", [])` on the inner value: `AttributeError`
when the value is not a dict. -/
def innerNorm : Json → Except String Json
  | .obj g => .ok (.obj (setdefaultObj (setdefaultObj g "flag" (Json.bool false))
      "evidence" (Json.arr [])))
  | _ => .error "AttributeError: setdefault"

/-- In-place update of the (first) entry with key `k`, modelling mutation of
`data[k]`; `KeyError` when `k` is absent. -/
def replaceFirst (f : Json → Except String Json) :
    List (String × Json) → String → Except String (List (String × Json))
  | [], _ => .error "KeyError"
  | (k1, v) :: rest, k =>
    if k1 = k then
      match f v with
      | .ok v1 => .ok ((k1, v1) :: rest)
      | .error e => .error e
    else
      match replaceFirst f rest k with
      | .ok rest1 => .ok ((k1, v) :: rest1)
      | .error e => .error e

/-- One iteration of the normalization loop in `analyze_with_llm`:
`data.setdefault(k, {...}); data[k].setdefault("flag", False);
data[k].setdefault("evidence", [])`. -/
def normStep (fs : List (String × Json)) (k : String) :
    Except String (List (String × Json)) :=
  replaceFirst innerNorm (setdefaultObj fs k defaultCat) k

/-- The normalization loop of `analyze_with_llm` (lines 84-88 of server.py),
unrolled over the tuple `("discrimination", "defamation", "advertisement")`.
A non-dict parse result raises `AttributeError` on the first `setdefault`
call, exactly as in Python. -/
def normalizeData : Json → Except String (List (String × Json))
  | .obj fs =>
    match normStep fs "discrimination" with
    | .error e => .error e
    | .ok fs1 =>
      match normStep fs1 "defamation" with
      | .error e => .error e
      | .ok fs2 => normStep fs2 "advertisement"
  | _ => .error "AttributeError: setdefault"

/-- The result of `json.loads(content)`: `.error ()` stands for any content
that fails to parse as JSON (including `None` content). -/
abbrev ParsedContent := Except Unit Json

/-- Lines 79-88 of server.py: parse the content, substituting `{}` on parse
failure, then run the normalization loop. -/
def normalizeContent (c : ParsedContent) : Except String (List (String × Json)) :=
  normalizeData (match c with | .ok j => j | .error _ => Json.obj [])

/-- The two chat-completion call shapes issued by `analyze_with_llm`. -/
inductive CallKind where
  | jsonMode : CallKind
  | plain : CallKind
deriving DecidableEq, Repr

/-- The external model, as seen through the two call shapes.  Each call takes
the truncated title and body and either raises (`.error e` with `e = str(e)`)
or returns a response whose content parses to `ParsedContent`. -/
structure LlmOracle where
  jsonMode : String → String → Except String ParsedContent
  plain : String → String → Except String ParsedContent

/-- `analyze_with_llm` from server.py: try the strict-JSON call; on any
exception retry once with the plain call; an exception from the plain call
propagates.  Returns the normalized dict (or the propagated error) together
with the list of calls issued. -/
def analyze_with_llm (llm : LlmOracle) (title body : String) :
    Except String (List (String × Json)) × List CallKind :=
  let t := trunc title 300
  let b := trunc body 4700
  match llm.jsonMode t b with
  | .ok c => (normalizeContent c, [CallKind.jsonMode])
  | .error _ =>
    match llm.plain t b with
    | .ok c => (normalizeContent c, [CallKind.jsonMode, CallKind.plain])
    | .error e => (.error e, [CallKind.jsonMode, CallKind.plain])

/-- An article as returned by `fetch_articles_by_date` after projection.
Missing document fields are already defaulted to `""`, mirroring the
`a.get(field, "")` accesses in `run_review`. -/
structure Article where
  url : String
  title : String
  text : String
  published_date : String

/-- The document store: given a date string, either raises or returns the
matching articles (line 90-94 of server.py). -/
abbrev Store := String → Except String (List Article)

/-- A recorded review result (the dict appended to `results`). -/
structure ReviewResult where
  url : String
  title : String
  published_date : String
  violations : List String
  evidence : List (String × Json)

/-- Job status values. -/
inductive Status where
  | queued : Status
  | running : Status
  | done : Status
  | failed : Status
deriving DecidableEq, Repr

/-- A registry entry (`JOBS[job_id]`): a Python dict whose optional fields
are `none` when the key is absent from the dict. -/
structure JobEntry where
  status : Status
  progress : Option Nat
  count : Option Nat
  result : Option (List ReviewResult)
  error : Option String

/-- The entry `{"status": "running", "progress": p}`. -/
def runningEntry (p : Nat) : JobEntry :=
  { status := Status.running, progress := some p, count := none,
    result := none, error := none }

/-- The terminal entry written on normal completion (line 120-125). -/
def doneEntry (n : Nat) (rs : List ReviewResult) : JobEntry :=
  { status := Status.done, progress := some 100, count := some n,
    result := some rs, error := none }

/-- The terminal entry written on exception (line 127). -/
def failedEntry (e : String) : JobEntry :=
  { status := Status.failed, progress := none, count := none,
    result := none, error := some e }

/-- The comprehension `[PRETTY[k] for k, v in res.items() if k in PRETTY and
v.get("flag")]`.  `v.get("flag")` is evaluated only when `k in PRETTY`
(short-circuit `and`), and an `AttributeError` aborts the comprehension. -/
def viols : List (String × Json) → Except String (List String)
  | [] => .ok []
  | (k, v) :: rest =>
    match lookupLabel k with
    | none => viols rest
    | some lab =>
      match dictGet v "flag" with
      | .error e => .error e
      | .ok fl =>
        match viols rest with
        | .error e => .error e
        | .ok tail => .ok (if truthy fl then lab :: tail else tail)

/-- The comprehension `{k: (v.get("evidence") or [])[:5] for k, v in
res.items() if v.get("flag")}`: here `v.get("flag")` is evaluated for every
item, so any non-dict value aborts with `AttributeError`. -/
def buildEvidence : List (String × Json) → Except String (List (String × Json))
  | [] => .ok []
  | (k, v) :: rest =>
    match dictGet v "flag" with
    | .error e => .error e
    | .ok fl =>
      if truthy fl then
        match dictGet v "evidence" with
        | .error e => .error e
        | .ok ev0 =>
          match slice5 (if truthy ev0 then ev0 else Json.arr []) with
          | .error e => .error e
          | .ok ev =>
            match buildEvidence rest with
            | .error e => .error e
            | .ok tail => .ok ((k, ev) :: tail)
      else buildEvidence rest

/-- The body of one iteration of the article loop (lines 105-116): analyze
the article, compute the violation labels, and if any, build the recorded
`ReviewResult`. -/
def processArticle (llm : LlmOracle) (a : Article) :
    Except String (Option ReviewResult) :=
  match (analyze_with_llm llm a.title a.text).1 with
  | .error e => .error e
  | .ok res =>
    match viols res with
    | .error e => .error e
    | .ok vs =>
      if vs.isEmpty then .ok none
      else
        match buildEvidence res with
        | .error e => .error e
        | .ok ev =>
          .ok (some { url := a.url, title := a.title,
                      published_date := a.published_date,
                      violations := vs, evidence := ev })

/-- The accumulator after one article: append the recorded result, if
any. -/
def accAfter : Option ReviewResult → List ReviewResult → List ReviewResult
  | some rr, acc => acc ++ [rr]
  | none, acc => acc

/-- Outcome of the article loop: the accumulated results (or the first
exception), the sequence of progress values written to the registry entry,
and the number of analyzer invocations started. -/
structure LoopOut where
  res : Except String (List ReviewResult)
  updates : List Nat
  calls : Nat

/-- The article loop of `run_review` (lines 105-118), with `i` the 1-based
index of the next article and `total = max 1 N`.  After each successfully
analyzed article the progress write `floor(i * 100 / total)` is recorded;
an exception stops the loop before that article's progress write. -/
def runLoop (llm : LlmOracle) (total : Nat) :
    List Article → Nat → List ReviewResult → LoopOut
  | [], _, acc => ⟨.ok acc, [], 0⟩
  | a :: rest, i, acc =>
    match processArticle llm a with
    | .error e => ⟨.error e, [], 1⟩
    | .ok r =>
      let out := runLoop llm total rest (i + 1) (accAfter r acc)
      ⟨out.res, i * 100 / total :: out.updates, out.calls + 1⟩

/-- The strict date pattern of line 99:
`re.fullmatch(r"\d{4}-\d{2}-\d{2}", date_str)`. -/
def dateFormatOk (s : String) : Bool :=
  match s.data with
  | [a, b, c, d, h1, e, f, h2, g, h] =>
    a.isDigit && b.isDigit && c.isDigit && d.isDigit && (h1 = '-') &&
    e.isDigit && f.isDigit && (h2 = '-') && g.isDigit && h.isDigit
  | _ => false

/-- External invocations performed by a run. -/
inductive Effect where
  | fetch (date : String) : Effect
  | llmCall : Effect
deriving DecidableEq, Repr

/-- Everything one `run_review` execution does to the outside world: the
ordered trace of registry entries (each write to `JOBS[job_id]`, includes
in-place progress mutations of the running entry) and the external calls. -/
structure RunOutcome where
  trace : List JobEntry
  effects : List Effect

/-- `run_review` from server.py (lines 96-127). -/
def run_review (store : Store) (llm : LlmOracle) (date_str : String) :
    RunOutcome :=
  if dateFormatOk date_str then
    match store date_str with
    | .error e =>
      ⟨[runningEntry 0, failedEntry e], [Effect.fetch date_str]⟩
    | .ok articles =>
      let total := max 1 articles.length
      let out := runLoop llm total articles 1 []
      let final := match out.res with
        | .ok results => doneEntry results.length results
        | .error e => failedEntry e
      ⟨runningEntry 0 :: out.updates.map runningEntry ++ [final],
       Effect.fetch date_str :: List.replicate out.calls Effect.llmCall⟩
  else
    ⟨[runningEntry 0, failedEntry "날짜는 YYYY-MM-DD 형식"], []⟩

/-- The all-default analyzer output: all three categories unflagged with
empty evidence. -/
def defaultFields : List (String × Json) :=
  [("discrimination", defaultCat), ("defamation", defaultCat),
   ("advertisement", defaultCat)]

/-- The flag test a successful evidence comprehension applies to each value:
the value is a dict and its `flag` entry is truthy. -/
def flagTruthy (v : Json) : Bool :=
  match v with
  | .obj g => truthy ((objGet g "flag").getD .null)
  | _ => false

/-- The list of progress values `floor(j * 100 / total)` for
`j = i, i+1, ..., i+m-1`. -/
def progSeq (total i : Nat) : Nat → List Nat
  | 0 => []
  | m + 1 => i * 100 / total :: progSeq total (i + 1) m

/-- The value stored for key `k` is either absent or itself an object. -/
def objOrAbsent (fs : List (String × Json)) (k : String) : Bool :=
  match objGet fs k with
  | none => true
  | some (Json.obj _) => true
  | some _ => false

/-- What normalization does to one fixed key `k`: the output has an object
at `k` whose `flag` and `evidence` entries are both present, equal the
input's entries when those were present, and equal the defaults otherwise
(for an absent key, the whole default object). -/
def keyNormalized (fs nfs : List (String × Json)) (k : String) : Prop :=
  ∃ g0 g,
    (objGet fs k = some (Json.obj g0) ∨ (objGet fs k = none ∧ g0 = defaultCatFields)) ∧
    objGet nfs k = some (Json.obj g) ∧
    objGet g "flag" = some ((objGet g0 "flag").getD (Json.bool false)) ∧
    objGet g "evidence" = some ((objGet g0 "evidence").getD (Json.arr []))

/-- The label contributed to the violations list by one item of the analyzer
output: the display label when the key is a fixed category whose value is a
dict with a truthy `flag`, nothing otherwise. -/
def violLabelOf (p : String × Json) : Option String :=
  match lookupLabel p.1 with
  | none => none
  | some lab => if flagTruthy p.2 then some lab else none

/-- A concrete article used for witnesses. -/
def article1 : Article :=
  { url := "u1", title := "t1", text := "x1", published_date := "2024-01-15" }

/-- A store holding exactly `article1` for every date. -/
def storeOne : Store := fun _ => .ok [article1]

/-- A store holding no articles for any date. -/
def storeEmpty : Store := fun _ => .ok []

/-- A store whose lookup raises. -/
def storeBoom : Store := fun _ => .error "boom"

/-- A model that always answers with unparseable content. -/
def llmDefault : LlmOracle :=
  { jsonMode := fun _ _ => .ok (.error ()), plain := fun _ _ => .ok (.error ()) }

/-- A model that flags advertisement and discrimination, listing
advertisement first in its response object. -/
def llmUnordered : LlmOracle :=
  { jsonMode := fun _ _ => .ok (.ok (Json.obj
      [("advertisement", Json.obj [("flag", Json.bool true), ("evidence", Json.arr [])]),
       ("discrimination", Json.obj [("flag", Json.bool true), ("evidence", Json.arr [])])])),
    plain := fun _ _ => .ok (.error ()) }

/-- The result recorded for `article1` under `llmUnordered`. -/
def rrUnordered : ReviewResult :=
  { url := "u1", title := "t1", published_date := "2024-01-15",
    violations := ["광고성", "차별적 용어"],
    evidence := [("advertisement", Json.arr []), ("discrimination", Json.arr [])] }

/-- A model that flags discrimination with a *string* as the evidence
value. -/
def llmStrEv : LlmOracle :=
  { jsonMode := fun _ _ => .ok (.ok (Json.obj
      [("discrimination", Json.obj
          [("flag", Json.bool true), ("evidence", Json.str "abcdefgh")])])),
    plain := fun _ _ => .ok (.error ()) }

/-- The result recorded for `article1` under `llmStrEv`. -/
def rrStrEv : ReviewResult :=
  { url := "u1", title := "t1", published_date := "2024-01-15",
    violations := ["차별적 용어"],
    evidence := [("discrimination", Json.str "abcde")] }

/-- A model that flags discrimination and an extra key outside the three
fixed categories. -/
def llmExtra : LlmOracle :=
  { jsonMode := fun _ _ => .ok (.ok (Json.obj
      [("discrimination", Json.obj [("flag", Json.bool true), ("evidence", Json.arr [])]),
       ("extra", Json.obj [("flag", Json.bool true),
           ("evidence", Json.arr [Json.str "x", Json.str "y"])])])),
    plain := fun _ _ => .ok (.error ()) }

/-- The result recorded for `article1` under `llmExtra`. -/
def rrExtra : ReviewResult :=
  { url := "u1", title := "t1", published_date := "2024-01-15",
    violations := ["차별적 용어"],
    evidence := [("discrimination", Json.arr []),
                 ("extra", Json.arr [Json.str "x", Json.str "y"])] }

/-- A model whose strict-JSON call raises but whose plain call answers with
an empty JSON object. -/
def llmFailJson : LlmOracle :=
  { jsonMode := fun _ _ => .error "json mode unsupported",
    plain := fun _ _ => .ok (.ok (Json.obj [])) }

/-- A model whose two call shapes both raise. -/
def llmFailBoth : LlmOracle :=
  { jsonMode := fun _ _ => .error "e1", plain := fun _ _ => .error "e2" }

theorem objGet_append_of_none {fs : List (String × Json)} {k : String}
    (h : objGet fs k = none) (ys : List (String × Json)) :
    objGet (fs ++ ys) k = objGet ys k := by
  induction fs with
  | nil => rfl
  | cons p rest ih =>
    obtain ⟨k1, v⟩ := p
    simp only [objGet, List.cons_append] at h ⊢
    by_cases hk : k1 = k
    · simp [hk] at h
    · simp only [if_neg hk] at h ⊢
      exact ih h

theorem objGet_append_of_some {fs : List (String × Json)} {k : String} {v : Json}
    (h : objGet fs k = some v) (ys : List (String × Json)) :
    objGet (fs ++ ys) k = some v := by
  induction fs with
  | nil => simp [objGet] at h
  | cons p rest ih =>
    obtain ⟨k1, w⟩ := p
    simp only [objGet, List.cons_append] at h ⊢
    by_cases hk : k1 = k
    · simpa [hk] using h
    · simp only [if_neg hk] at h ⊢
      exact ih h

theorem objGet_setdefaultObj_self (fs : List (String × Json)) (k : String) (v : Json) :
    objGet (setdefaultObj fs k v) k = some ((objGet fs k).getD v) := by
  unfold setdefaultObj
  rcases hg : objGet fs k with _ | w
  · rw [objGet_append_of_none hg]
    simp [objGet]
  · simp [hg]

theorem objGet_setdefaultObj_ne (fs : List (String × Json)) {k k1 : String}
    (v : Json) (h : k1 ≠ k) :
    objGet (setdefaultObj fs k v) k1 = objGet fs k1 := by
  unfold setdefaultObj
  rcases hg : objGet fs k with _ | w
  · rcases hg1 : objGet fs k1 with _ | w1
    · rw [objGet_append_of_none hg1]
      have hne : ¬ k = k1 := fun hh => h hh.symm
      simp [objGet, hne]
    · exact objGet_append_of_some hg1 _
  · rfl

theorem replaceFirst_spec {fs : List (String × Json)} {k : String} {v w : Json}
    {f : Json → Except String Json}
    (hget : objGet fs k = some v) (hf : f v = .ok w) :
    ∃ fs1, replaceFirst f fs k = .ok fs1 ∧ objGet fs1 k = some w ∧
      ∀ k1, k1 ≠ k → objGet fs1 k1 = objGet fs k1 := by
  induction fs with
  | nil => simp [objGet] at hget
  | cons p rest ih =>
    obtain ⟨k1, u⟩ := p
    by_cases hk : k1 = k
    · subst hk
      have huv : u = v := by simpa [objGet] using hget
      subst huv
      refine ⟨(k1, w) :: rest, ?_, ?_, ?_⟩
      · simp [replaceFirst, hf]
      · simp [objGet]
      · intro k2 hk2
        have hne : ¬ k1 = k2 := fun hh => hk2 hh.symm
        simp [objGet, hne]
    · simp only [objGet, if_neg hk] at hget
      obtain ⟨rest1, hr, hr1, hr2⟩ := ih hget
      refine ⟨(k1, u) :: rest1, ?_, ?_, ?_⟩
      · simp [replaceFirst, if_neg hk, hr]
      · simp only [objGet, if_neg hk]
        exact hr1
      · intro k2 hk2
        by_cases hk12 : k1 = k2
        · simp [objGet, hk12]
        · simp only [objGet, if_neg hk12]
          exact hr2 k2 hk2

theorem objOrAbsent_spec {fs : List (String × Json)} {k : String}
    (h : objOrAbsent fs k = true) :
    objGet fs k = none ∨ ∃ g, objGet fs k = some (Json.obj g) := by
  unfold objOrAbsent at h
  rcases hg : objGet fs k with _ | v
  · exact Or.inl rfl
  · rw [hg] at h
    cases v with
    | obj g => exact Or.inr ⟨g, rfl⟩
    | null => simp at h
    | bool b => simp at h
    | num n => simp at h
    | str s => simp at h
    | arr xs => simp at h

theorem normStep_spec {fs : List (String × Json)} {k : String}
    (h : objGet fs k = none ∨ ∃ g, objGet fs k = some (Json.obj g)) :
    ∃ g0 fs1,
      (objGet fs k = some (Json.obj g0) ∨ (objGet fs k = none ∧ g0 = defaultCatFields)) ∧
      normStep fs k = .ok fs1 ∧
      objGet fs1 k = some (Json.obj (setdefaultObj
        (setdefaultObj g0 "flag" (Json.bool false)) "evidence" (Json.arr []))) ∧
      ∀ k1, k1 ≠ k → objGet fs1 k1 = objGet fs k1 := by
  rcases h with hnone | ⟨g, hg⟩
  · have hsd : objGet (setdefaultObj fs k defaultCat) k = some defaultCat := by
      rw [objGet_setdefaultObj_self, hnone]
      rfl
    have hf : innerNorm defaultCat = .ok (Json.obj (setdefaultObj
        (setdefaultObj defaultCatFields "flag" (Json.bool false)) "evidence" (Json.arr []))) := rfl
    obtain ⟨fs1, h1, h2, h3⟩ := replaceFirst_spec hsd hf
    refine ⟨defaultCatFields, fs1, Or.inr ⟨hnone, rfl⟩, h1, h2, ?_⟩
    intro k1 hk1
    rw [h3 k1 hk1, objGet_setdefaultObj_ne fs defaultCat hk1]
  · have hsd : objGet (setdefaultObj fs k defaultCat) k = some (Json.obj g) := by
      rw [objGet_setdefaultObj_self, hg]
      rfl
    have hf : innerNorm (Json.obj g) = .ok (Json.obj (setdefaultObj
        (setdefaultObj g "flag" (Json.bool false)) "evidence" (Json.arr []))) := rfl
    obtain ⟨fs1, h1, h2, h3⟩ := replaceFirst_spec hsd hf
    refine ⟨g, fs1, Or.inl hg, ?_, h2, ?_⟩
    · unfold normStep
      unfold setdefaultObj
      rw [hg]
      unfold setdefaultObj at h1
      rw [hg] at h1
      exact h1
    · intro k1 hk1
      rw [h3 k1 hk1, objGet_setdefaultObj_ne fs defaultCat hk1]

/-- C4: an invalid date string causes the job to end failed with the Korean
validation message; the final registry entry carries no progress, count or
result fields, and neither the article store nor the analyzer is ever
invoked (the effect log is empty). -/
theorem C4_invalid_date (store : Store) (llm : LlmOracle) (date : String)
    (h : dateFormatOk date = false) :
    run_review store llm date =
      ⟨[runningEntry 0, failedEntry "날짜는 YYYY-MM-DD 형식"], []⟩ := by
  simp [run_review, h]

theorem C4_invalid_date_witness :
    dateFormatOk "2024/01/15" = false ∧
    run_review storeEmpty llmDefault "2024/01/15" =
      ⟨[runningEntry 0, failedEntry "날짜는 YYYY-MM-DD 형식"], []⟩ :=
  ⟨by decide, C4_invalid_date storeEmpty llmDefault "2024/01/15" (by decide)⟩

/-- C7: for a valid date with an empty article list, the job completes with
status done, progress 100, count 0 and an empty result list, after a single
store fetch and no analyzer calls. -/
theorem C7_empty_store (store : Store) (llm : LlmOracle) (date : String)
    (hd : dateFormatOk date = true) (hs : store date = .ok []) :
    run_review store llm date =
      ⟨[runningEntry 0, doneEntry 0 []], [Effect.fetch date]⟩ := by
  simp [run_review, hd, hs, runLoop]

theorem C7_empty_store_witness :
    dateFormatOk "2024-01-15" = true ∧
    storeEmpty "2024-01-15" = .ok [] ∧
    run_review storeEmpty llmDefault "2024-01-15" =
      ⟨[runningEntry 0, doneEntry 0 []], [Effect.fetch "2024-01-15"]⟩ :=
  ⟨by decide, rfl,
    C7_empty_store storeEmpty llmDefault "2024-01-15" (by decide) rfl⟩

/-- C1 counterexample: for the model response `{"discrimination": {"flag":
"yes"}}` the normalized output keeps the non-boolean flag value `"yes"`, so
the output is not guaranteed to have boolean-valued flags. -/
theorem C1_counterexample :
    normalizeData (Json.obj [("discrimination", Json.obj [("flag", Json.str "yes")])]) =
      .ok [("discrimination", Json.obj [("flag", Json.str "yes"), ("evidence", Json.arr [])]),
           ("defamation", defaultCat), ("advertisement", defaultCat)] ∧
    isBool (Json.str "yes") = false :=
  ⟨rfl, rfl⟩

theorem keyNormalized_intro {fs nfs g0 : List (String × Json)} {k : String}
    (hcase : objGet fs k = some (Json.obj g0) ∨
      (objGet fs k = none ∧ g0 = defaultCatFields))
    (hget : objGet nfs k = some (Json.obj (setdefaultObj
      (setdefaultObj g0 "flag" (Json.bool false)) "evidence" (Json.arr [])))) :
    keyNormalized fs nfs k := by
  refine ⟨g0, _, hcase, hget, ?_, ?_⟩
  · rw [objGet_setdefaultObj_ne _ _ (show "flag" ≠ "evidence" by decide),
      objGet_setdefaultObj_self]
  · rw [objGet_setdefaultObj_self,
      objGet_setdefaultObj_ne _ _ (show "evidence" ≠ "flag" by decide)]

/-- C1 (amended): provided the parsed model response is a JSON object whose
three fixed-key values, when present, are themselves objects, normalization
succeeds and the output contains all three fixed keys, each mapped to an
object in which both a flag entry and an evidence entry are present — equal
to the model's values when those were present, and to the defaults false
and [] otherwise.  Present sub-field values are passed through unmodified,
so they are not coerced to booleans or lists of strings, and for a parsed
value that is not an object of objects the normalization raises instead. -/
theorem C1_normalized_shape (fs : List (String × Json))
    (h1 : objOrAbsent fs "discrimination" = true)
    (h2 : objOrAbsent fs "defamation" = true)
    (h3 : objOrAbsent fs "advertisement" = true) :
    ∃ nfs, normalizeData (Json.obj fs) = .ok nfs ∧
      keyNormalized fs nfs "discrimination" ∧
      keyNormalized fs nfs "defamation" ∧
      keyNormalized fs nfs "advertisement" := by
  obtain ⟨g0d, fs1, hcased, hstep1, hget1, hpres1⟩ :=
    normStep_spec (objOrAbsent_spec h1)
  have h2a : objGet fs1 "defamation" = objGet fs "defamation" :=
    hpres1 _ (by decide)
  have h3a : objGet fs1 "advertisement" = objGet fs "advertisement" :=
    hpres1 _ (by decide)
  have hyp2 : objGet fs1 "defamation" = none ∨
      ∃ g, objGet fs1 "defamation" = some (Json.obj g) := by
    rw [h2a]
    exact objOrAbsent_spec h2
  obtain ⟨g0f, fs2, hcasef, hstep2, hget2, hpres2⟩ := normStep_spec hyp2
  have h3b : objGet fs2 "advertisement" = objGet fs "advertisement" := by
    rw [hpres2 _ (by decide), h3a]
  have hyp3 : objGet fs2 "advertisement" = none ∨
      ∃ g, objGet fs2 "advertisement" = some (Json.obj g) := by
    rw [h3b]
    exact objOrAbsent_spec h3
  obtain ⟨g0a, fs3, hcasea, hstep3, hget3, hpres3⟩ := normStep_spec hyp3
  refine ⟨fs3, ?_, ?_, ?_, ?_⟩
  · simp only [normalizeData, hstep1, hstep2, hstep3]
  · refine keyNormalized_intro hcased ?_
    rw [hpres3 _ (by decide), hpres2 _ (by decide)]
    exact hget1
  · have hcasef1 : objGet fs "defamation" = some (Json.obj g0f) ∨
        (objGet fs "defamation" = none ∧ g0f = defaultCatFields) := by
      rw [← h2a]
      exact hcasef
    refine keyNormalized_intro hcasef1 ?_
    rw [hpres3 _ (by decide)]
    exact hget2
  · have hcasea1 : objGet fs "advertisement" = some (Json.obj g0a) ∨
        (objGet fs "advertisement" = none ∧ g0a = defaultCatFields) := by
      rw [← h3b]
      exact hcasea
    exact keyNormalized_intro hcasea1 hget3

theorem C1_normalized_shape_witness :
    objOrAbsent [("discrimination", Json.obj [("flag", Json.bool true)])]
      "discrimination" = true ∧
    objOrAbsent [("discrimination", Json.obj [("flag", Json.bool true)])]
      "defamation" = true ∧
    objOrAbsent [("discrimination", Json.obj [("flag", Json.bool true)])]
      "advertisement" = true ∧
    ∃ nfs, normalizeData (Json.obj
        [("discrimination", Json.obj [("flag", Json.bool true)])]) = .ok nfs ∧
      keyNormalized [("discrimination", Json.obj [("flag", Json.bool true)])]
        nfs "discrimination" ∧
      keyNormalized [("discrimination", Json.obj [("flag", Json.bool true)])]
        nfs "defamation" ∧
      keyNormalized [("discrimination", Json.obj [("flag", Json.bool true)])]
        nfs "advertisement" :=
  ⟨rfl, rfl, rfl, C1_normalized_shape _ rfl rfl rfl⟩

/-- C2 counterexample: with one article and a non-flagging model, the trace
contains the entry `{"status": "running", "progress": 100}` written after
the last article and before the final done write, so progress reaches 100
while the status is not yet done. -/
theorem C2_counterexample :
    (run_review storeOne llmDefault "2024-01-15").trace =
      [runningEntry 0, runningEntry 100, doneEntry 0 []] ∧
    (runningEntry 100).progress = some 100 ∧
    (runningEntry 100).status ≠ Status.done :=
  ⟨rfl, rfl, by decide⟩

/-- C3 counterexample: when the model lists the advertisement key before the
discrimination key, the recorded violations list is `["광고성", "차별적
용어"]`, following the response's key order rather than the fixed category
order `["차별적 용어", "광고성"]`. -/
theorem C3_counterexample :
    processArticle llmUnordered article1 = .ok (some rrUnordered) ∧
    rrUnordered.violations ≠ ["차별적 용어", "광고성"] :=
  ⟨rfl, by decide⟩

theorem processArticle_ok_some {llm : LlmOracle} {a : Article} {rr : ReviewResult}
    (h : processArticle llm a = .ok (some rr)) :
    ∃ res vs ev, (analyze_with_llm llm a.title a.text).1 = .ok res ∧
      viols res = .ok vs ∧ vs.isEmpty = false ∧ buildEvidence res = .ok ev ∧
      rr = { url := a.url, title := a.title,
             published_date := a.published_date,
             violations := vs, evidence := ev } := by
  unfold processArticle at h
  split at h
  · exact Except.noConfusion h
  · rename_i res hres
    split at h
    · exact Except.noConfusion h
    · rename_i vs hvs
      split at h
      · rename_i hemp
        exact Option.noConfusion (Except.ok.inj h)
      · rename_i hemp
        split at h
        · exact Except.noConfusion h
        · rename_i ev hev
          refine ⟨res, vs, ev, hres, hvs, ?_, hev,
            (Option.some.inj (Except.ok.inj h)).symm⟩
          simpa using hemp

theorem viols_ok_eq {fs : List (String × Json)} {vs : List String}
    (h : viols fs = .ok vs) : vs = fs.filterMap violLabelOf := by
  induction fs generalizing vs with
  | nil =>
    simp only [viols] at h
    simp [← Except.ok.inj h]
  | cons p rest ih =>
    obtain ⟨k, v⟩ := p
    simp only [viols] at h
    split at h
    · rename_i hl
      simp [List.filterMap_cons, violLabelOf, hl, ih h]
    · rename_i lab hl
      split at h
      · exact Except.noConfusion h
      · rename_i fl hfl
        split at h
        · exact Except.noConfusion h
        · rename_i tail htail
          cases v with
          | obj g =>
            have hfl1 : fl = (objGet g "flag").getD Json.null :=
              (Except.ok.inj hfl).symm
            have hvs1 : vs = if truthy fl then lab :: tail else tail :=
              (Except.ok.inj h).symm
            have hft : flagTruthy (Json.obj g) = truthy fl := by
              simp only [flagTruthy]
              rw [hfl1]
            by_cases ht : truthy fl
            · simp [hvs1, List.filterMap_cons, violLabelOf, hl, hft, ht,
                ih htail]
            · simp [hvs1, List.filterMap_cons, violLabelOf, hl, hft, ht,
                ih htail]
          | null => exact Except.noConfusion hfl
          | bool b => exact Except.noConfusion hfl
          | num n => exact Except.noConfusion hfl
          | str s => exact Except.noConfusion hfl
          | arr xs => exact Except.noConfusion hfl

theorem lookupLabel_mem {k lab : String} (h : lookupLabel k = some lab) :
    (k, lab) ∈ PRETTY := by
  unfold lookupLabel at h
  split at h
  · rename_i p hp
    obtain ⟨k0, l0⟩ := p
    have hmem := List.mem_of_find?_eq_some hp
    have hkey : k0 = k := by
      have hpred := List.find?_some hp
      simpa using hpred
    have hlab : l0 = lab := Option.some.inj h
    rw [← hkey, ← hlab]
    exact hmem
  · exact Option.noConfusion h

theorem slice5_ok {x ev : Json} (h : slice5 x = .ok ev) :
    (∃ xs, ev = Json.arr xs ∧ xs.length ≤ 5) ∨
    (∃ s, ev = Json.str s ∧ s.length ≤ 5) := by
  cases x with
  | arr xs =>
    refine Or.inl ⟨xs.take 5, (Except.ok.inj h).symm, ?_⟩
    simp [List.length_take]
  | str s =>
    refine Or.inr ⟨String.mk (s.data.take 5), (Except.ok.inj h).symm, ?_⟩
    show (s.data.take 5).length ≤ 5
    simp [List.length_take]
  | null => exact Except.noConfusion h
  | bool b => exact Except.noConfusion h
  | num n => exact Except.noConfusion h
  | obj fs => exact Except.noConfusion h

theorem buildEvidence_values {fs evs : List (String × Json)}
    (h : buildEvidence fs = .ok evs) :
    ∀ p ∈ evs, (∃ xs, p.2 = Json.arr xs ∧ xs.length ≤ 5) ∨
      (∃ s, p.2 = Json.str s ∧ s.length ≤ 5) := by
  induction fs generalizing evs with
  | nil =>
    simp only [buildEvidence] at h
    simp [← Except.ok.inj h]
  | cons p rest ih =>
    obtain ⟨k, v⟩ := p
    simp only [buildEvidence] at h
    split at h
    · exact Except.noConfusion h
    · rename_i fl hfl
      split at h
      · split at h
        · exact Except.noConfusion h
        · rename_i ev0 hev0
          split at h
          · exact Except.noConfusion h
          · rename_i ev hev
            split at h
            · exact Except.noConfusion h
            · rename_i tail htail
              have hevs : evs = (k, ev) :: tail := (Except.ok.inj h).symm
              intro q hq
              rw [hevs] at hq
              rcases List.mem_cons.mp hq with hq1 | hq2
              · rw [hq1]
                exact slice5_ok hev
              · exact ih htail q hq2
      · exact ih h

theorem buildEvidence_keys {fs evs : List (String × Json)}
    (h : buildEvidence fs = .ok evs) :
    evs.map Prod.fst = (fs.filter (fun p => flagTruthy p.2)).map Prod.fst := by
  induction fs generalizing evs with
  | nil =>
    simp only [buildEvidence] at h
    simp [← Except.ok.inj h]
  | cons p rest ih =>
    obtain ⟨k, v⟩ := p
    simp only [buildEvidence] at h
    split at h
    · exact Except.noConfusion h
    · rename_i fl hfl
      have hobj : ∃ g, v = Json.obj g ∧ fl = (objGet g "flag").getD Json.null := by
        cases v with
        | obj g => exact ⟨g, rfl, (Except.ok.inj hfl).symm⟩
        | null => exact Except.noConfusion hfl
        | bool b => exact Except.noConfusion hfl
        | num n => exact Except.noConfusion hfl
        | str s => exact Except.noConfusion hfl
        | arr xs => exact Except.noConfusion hfl
      obtain ⟨g, hg, hfl1⟩ := hobj
      have hft : flagTruthy v = truthy fl := by
        rw [hg, hfl1]
        rfl
      split at h
      · rename_i ht
        split at h
        · exact Except.noConfusion h
        · rename_i ev0 hev0
          split at h
          · exact Except.noConfusion h
          · rename_i ev hev
            split at h
            · exact Except.noConfusion h
            · rename_i tail htail
              have hevs : evs = (k, ev) :: tail := (Except.ok.inj h).symm
              simp [hevs, List.filter_cons, hft, ht, ih htail]
      · rename_i ht
        have hfalse : truthy fl = false := by simpa using ht
        simp [List.filter_cons, hft, hfalse, ih h]

/-- C3 (amended): for every recorded ReviewResult, the violations list is
nonempty and lists exactly the display labels of the fixed categories whose
flag is truthy in the analyzer output, ordered by the key order of the
normalized analyzer output (the model's own key order, with missing fixed
keys appended), not by the fixed category order. -/
theorem C3_violations (llm : LlmOracle) (a : Article) (rr : ReviewResult)
    (h : processArticle llm a = .ok (some rr)) :
    ∃ fs, (analyze_with_llm llm a.title a.text).1 = .ok fs ∧
      rr.violations = fs.filterMap violLabelOf ∧ rr.violations ≠ [] := by
  obtain ⟨res, vs, ev, hres, hvs, hemp, hev, hrr⟩ := processArticle_ok_some h
  refine ⟨res, hres, ?_, ?_⟩
  · rw [hrr]
    exact viols_ok_eq hvs
  · rw [hrr]
    intro hnil
    have hv2 : vs = [] := hnil
    rw [hv2] at hemp
    simp at hemp

theorem C3_violations_witness :
    processArticle llmUnordered article1 = .ok (some rrUnordered) ∧
    ∃ fs, (analyze_with_llm llmUnordered article1.title article1.text).1 = .ok fs ∧
      rrUnordered.violations = fs.filterMap violLabelOf ∧
      rrUnordered.violations ≠ [] :=
  ⟨rfl, C3_violations llmUnordered article1 rrUnordered rfl⟩

/-- C6 (amended): every evidence value in a recorded ReviewResult is the
first-5 slice of the model's evidence value: a list of at most 5 entries
when the model's value is a list (or falsy), but a string of at most 5
characters when the model supplied a string. -/
theorem C6_evidence_bounded (llm : LlmOracle) (a : Article) (rr : ReviewResult)
    (h : processArticle llm a = .ok (some rr)) :
    ∀ p ∈ rr.evidence, (∃ xs, p.2 = Json.arr xs ∧ xs.length ≤ 5) ∨
      (∃ s, p.2 = Json.str s ∧ s.length ≤ 5) := by
  obtain ⟨res, vs, ev, hres, hvs, hemp, hev, hrr⟩ := processArticle_ok_some h
  rw [hrr]
  exact buildEvidence_values hev

theorem C6_evidence_bounded_witness :
    processArticle llmStrEv article1 = .ok (some rrStrEv) ∧
    ∀ p ∈ rrStrEv.evidence, (∃ xs, p.2 = Json.arr xs ∧ xs.length ≤ 5) ∨
      (∃ s, p.2 = Json.str s ∧ s.length ≤ 5) :=
  ⟨rfl, C6_evidence_bounded llmStrEv article1 rrStrEv rfl⟩

/-- C10: in every recorded ReviewResult the evidence mapping is keyed by the
raw category identifiers of the analyzer output and holds one entry per key
whose flag is truthy — including keys outside the three fixed categories —
while the violations list only ever carries display labels of the three
fixed categories. -/
theorem C10_evidence_keys (llm : LlmOracle) (a : Article) (rr : ReviewResult)
    (h : processArticle llm a = .ok (some rr)) :
    ∃ fs, (analyze_with_llm llm a.title a.text).1 = .ok fs ∧
      rr.evidence.map Prod.fst =
        (fs.filter (fun p => flagTruthy p.2)).map Prod.fst ∧
      ∀ lab ∈ rr.violations, ∃ k, (k, lab) ∈ PRETTY := by
  obtain ⟨res, vs, ev, hres, hvs, hemp, hev, hrr⟩ := processArticle_ok_some h
  refine ⟨res, hres, ?_, ?_⟩
  · rw [hrr]
    exact buildEvidence_keys hev
  · rw [hrr]
    intro lab hlab
    have hlab2 : lab ∈ List.filterMap violLabelOf res := by
      have h0 : lab ∈ vs := hlab
      rwa [viols_ok_eq hvs] at h0
    obtain ⟨p, hp, hsome⟩ := List.mem_filterMap.mp hlab2
    unfold violLabelOf at hsome
    split at hsome
    · exact Option.noConfusion hsome
    · rename_i lab1 hl
      split at hsome
      · exact ⟨p.1, lookupLabel_mem (hl.trans (congrArg some
          (Option.some.inj hsome)))⟩
      · exact Option.noConfusion hsome

theorem C10_evidence_keys_witness :
    processArticle llmExtra article1 = .ok (some rrExtra) ∧
    ∃ fs, (analyze_with_llm llmExtra article1.title article1.text).1 = .ok fs ∧
      rrExtra.evidence.map Prod.fst =
        (fs.filter (fun p => flagTruthy p.2)).map Prod.fst ∧
      ∀ lab ∈ rrExtra.violations, ∃ k, (k, lab) ∈ PRETTY :=
  ⟨rfl, C10_evidence_keys llmExtra article1 rrExtra rfl⟩

/-- C6 counterexample: when the model returns the string `"abcdefgh"` as the
evidence value, the recorded evidence value is the sliced *string*
`"abcde"`, not a list, so the evidence value is not always a list of at
most 5 entries. -/
theorem C6_counterexample :
    processArticle llmStrEv article1 = .ok (some rrStrEv) ∧
    isArr (Json.str "abcde") = false :=
  ⟨rfl, rfl⟩

/-- C8: when the model's response content fails to parse as JSON, the
analyzer substitutes an empty object and returns the all-default
no-violations result for the three categories without raising; end-to-end,
a one-article job whose model response is unparseable completes with status
done and no error, so a parse failure never reaches a job's error field. -/
theorem C8_parse_failure (llm : LlmOracle) (t b : String) :
    (llm.jsonMode (trunc t 300) (trunc b 4700) = .ok (.error ()) →
      analyze_with_llm llm t b = (.ok defaultFields, [CallKind.jsonMode])) ∧
    (∀ e1, llm.jsonMode (trunc t 300) (trunc b 4700) = .error e1 →
      llm.plain (trunc t 300) (trunc b 4700) = .ok (.error ()) →
      analyze_with_llm llm t b =
        (.ok defaultFields, [CallKind.jsonMode, CallKind.plain])) ∧
    (∀ (store : Store) (date : String) (a : Article),
      dateFormatOk date = true → store date = .ok [a] →
      llm.jsonMode (trunc a.title 300) (trunc a.text 4700) = .ok (.error ()) →
      (run_review store llm date).trace.getLast? = some (doneEntry 0 [])) := by
  refine ⟨?_, ?_, ?_⟩
  · intro h
    simp only [analyze_with_llm, h]
    rfl
  · intro e1 h1 h2
    simp only [analyze_with_llm, h1, h2]
    rfl
  · intro store date a hd hs hj
    have hana : (analyze_with_llm llm a.title a.text).1 = .ok defaultFields := by
      simp only [analyze_with_llm, hj]
      rfl
    have hpa : processArticle llm a = .ok none := by
      unfold processArticle
      rw [hana]
      rfl
    have hloop : runLoop llm 1 [a] 1 [] = ⟨.ok [], [100], 1⟩ := by
      simp [runLoop, hpa, accAfter]
    have hrun : run_review store llm date =
        ⟨[runningEntry 0, runningEntry 100, doneEntry 0 []],
         [Effect.fetch date, Effect.llmCall]⟩ := by
      simp [run_review, hd, hs, hloop]
    rw [hrun]
    rfl

theorem C8_parse_failure_witness :
    llmDefault.jsonMode (trunc "t" 300) (trunc "b" 4700) = .ok (.error ()) ∧
    analyze_with_llm llmDefault "t" "b" = (.ok defaultFields, [CallKind.jsonMode]) :=
  ⟨rfl, (C8_parse_failure llmDefault "t" "b").1 rfl⟩

/-- C9: if the strict-JSON call raises, the analyzer issues exactly one
retry without the constraint (the call list is jsonMode then plain) and
uses the retry's response; if the retry also raises, its exception is not
caught in the analyzer and the job runner marks the whole job failed with
that exception's string. -/
theorem C9_fallback (llm : LlmOracle) (a : Article) (e1 : String)
    (h1 : llm.jsonMode (trunc a.title 300) (trunc a.text 4700) = .error e1) :
    (∀ c, llm.plain (trunc a.title 300) (trunc a.text 4700) = .ok c →
      analyze_with_llm llm a.title a.text =
        (normalizeContent c, [CallKind.jsonMode, CallKind.plain])) ∧
    (∀ e2, llm.plain (trunc a.title 300) (trunc a.text 4700) = .error e2 →
      analyze_with_llm llm a.title a.text =
        (.error e2, [CallKind.jsonMode, CallKind.plain]) ∧
      ∀ (store : Store) (date : String), dateFormatOk date = true →
        store date = .ok [a] →
        (run_review store llm date).trace.getLast? = some (failedEntry e2)) := by
  refine ⟨?_, ?_⟩
  · intro c hc
    simp only [analyze_with_llm, h1, hc]
  · intro e2 h2
    have hana : analyze_with_llm llm a.title a.text =
        (.error e2, [CallKind.jsonMode, CallKind.plain]) := by
      simp only [analyze_with_llm, h1, h2]
    refine ⟨hana, ?_⟩
    intro store date hd hs
    have hpa : processArticle llm a = .error e2 := by
      unfold processArticle
      rw [hana]
    have hloop : runLoop llm 1 [a] 1 [] = ⟨.error e2, [], 1⟩ := by
      simp [runLoop, hpa, accAfter]
    have hrun : run_review store llm date =
        ⟨[runningEntry 0, failedEntry e2],
         [Effect.fetch date, Effect.llmCall]⟩ := by
      simp [run_review, hd, hs, hloop]
    rw [hrun]
    rfl

theorem C9_fallback_witness :
    llmFailBoth.jsonMode (trunc article1.title 300)
      (trunc article1.text 4700) = .error "e1" ∧
    llmFailBoth.plain (trunc article1.title 300)
      (trunc article1.text 4700) = .error "e2" ∧
    dateFormatOk "2024-01-15" = true ∧
    storeOne "2024-01-15" = .ok [article1] ∧
    analyze_with_llm llmFailBoth article1.title article1.text =
      (.error "e2", [CallKind.jsonMode, CallKind.plain]) ∧
    (run_review storeOne llmFailBoth "2024-01-15").trace.getLast? =
      some (failedEntry "e2") := by
  have hmain := C9_fallback llmFailBoth article1 "e1" rfl
  have h2 := hmain.2 "e2" rfl
  exact ⟨rfl, rfl, by decide, rfl, h2.1,
    h2.2 storeOne "2024-01-15" (by decide) rfl⟩

theorem run_review_trace_mem {store : Store} {llm : LlmOracle} {date : String}
    {entry : JobEntry} (h : entry ∈ (run_review store llm date).trace) :
    (∃ p, entry = runningEntry p) ∨ (∃ n rs, entry = doneEntry n rs) ∨
    (∃ e, entry = failedEntry e) := by
  by_cases hd : dateFormatOk date = true
  · cases hs : store date with
    | error e =>
      have htr : (run_review store llm date).trace =
          [runningEntry 0, failedEntry e] := by
        simp [run_review, hd, hs]
      rw [htr] at h
      simp at h
      rcases h with h | h
      · exact Or.inl ⟨0, h⟩
      · exact Or.inr (Or.inr ⟨e, h⟩)
    | ok arts =>
      cases hres : (runLoop llm (max 1 arts.length) arts 1 []).res with
      | ok rs =>
        have htr : (run_review store llm date).trace =
            runningEntry 0 ::
              (runLoop llm (max 1 arts.length) arts 1 []).updates.map runningEntry
              ++ [doneEntry rs.length rs] := by
          simp [run_review, hd, hs, hres]
        rw [htr] at h
        rcases List.mem_append.mp h with h1 | h2
        · rcases List.mem_cons.mp h1 with h0 | hm
          · exact Or.inl ⟨0, h0⟩
          · obtain ⟨p, hp, hpe⟩ := List.mem_map.mp hm
            exact Or.inl ⟨p, hpe.symm⟩
        · rw [List.mem_singleton] at h2
          exact Or.inr (Or.inl ⟨rs.length, rs, h2⟩)
      | error e =>
        have htr : (run_review store llm date).trace =
            runningEntry 0 ::
              (runLoop llm (max 1 arts.length) arts 1 []).updates.map runningEntry
              ++ [failedEntry e] := by
          simp [run_review, hd, hs, hres]
        rw [htr] at h
        rcases List.mem_append.mp h with h1 | h2
        · rcases List.mem_cons.mp h1 with h0 | hm
          · exact Or.inl ⟨0, h0⟩
          · obtain ⟨p, hp, hpe⟩ := List.mem_map.mp hm
            exact Or.inl ⟨p, hpe.symm⟩
        · rw [List.mem_singleton] at h2
          exact Or.inr (Or.inr ⟨e, h2⟩)
  · have hd2 : dateFormatOk date = false := by
      simpa using hd
    have htr : (run_review store llm date).trace =
        [runningEntry 0, failedEntry "날짜는 YYYY-MM-DD 형식"] := by
      simp [run_review, hd2]
    rw [htr] at h
    simp at h
    rcases h with h | h
    · exact Or.inl ⟨0, h⟩
    · exact Or.inr (Or.inr ⟨_, h⟩)

/-- C5: every failed registry entry written by a run consists of exactly the
failed status and an error string — its progress, count and result fields
are absent — and whenever an exception is raised (by the store fetch or
inside the article loop) the final registry entry is precisely the failed
entry carrying that exception's string. -/
theorem C5_failed_shape (store : Store) (llm : LlmOracle) (date : String) :
    (∀ entry ∈ (run_review store llm date).trace,
      entry.status = Status.failed →
      entry.progress = none ∧ entry.count = none ∧ entry.result = none ∧
      ∃ e, entry.error = some e) ∧
    (∀ e, dateFormatOk date = true → store date = .error e →
      (run_review store llm date).trace.getLast? = some (failedEntry e)) ∧
    (∀ arts e, dateFormatOk date = true → store date = .ok arts →
      (runLoop llm (max 1 arts.length) arts 1 []).res = .error e →
      (run_review store llm date).trace.getLast? = some (failedEntry e)) := by
  refine ⟨?_, ?_, ?_⟩
  · intro entry hmem hst
    rcases run_review_trace_mem hmem with ⟨p, hp⟩ | ⟨n, rs, hp⟩ | ⟨e, hp⟩
    · rw [hp] at hst
      exact absurd hst (by simp [runningEntry])
    · rw [hp] at hst
      exact absurd hst (by simp [doneEntry])
    · rw [hp]
      exact ⟨rfl, rfl, rfl, e, rfl⟩
  · intro e hd hs
    have hrun : run_review store llm date =
        ⟨[runningEntry 0, failedEntry e], [Effect.fetch date]⟩ := by
      simp [run_review, hd, hs]
    rw [hrun]
    rfl
  · intro arts e hd hs hres
    have htr : (run_review store llm date).trace =
        runningEntry 0 ::
          (runLoop llm (max 1 arts.length) arts 1 []).updates.map runningEntry
          ++ [failedEntry e] := by
      simp [run_review, hd, hs, hres]
    rw [htr]
    exact List.getLast?_concat _

theorem C5_failed_shape_witness :
    dateFormatOk "2024-01-15" = true ∧
    storeBoom "2024-01-15" = .error "boom" ∧
    (run_review storeBoom llmDefault "2024-01-15").trace.getLast? =
      some (failedEntry "boom") :=
  ⟨by decide, rfl,
    (C5_failed_shape storeBoom llmDefault "2024-01-15").2.1 "boom" (by decide) rfl⟩

theorem filterMap_progress_cons_running (u : Nat) (l : List JobEntry) :
    List.filterMap JobEntry.progress (runningEntry u :: l) =
      u :: List.filterMap JobEntry.progress l := rfl

theorem filterMap_progress_map_running (s : List Nat) :
    List.filterMap JobEntry.progress (s.map runningEntry) = s := by
  induction s with
  | nil => rfl
  | cons u rest ih =>
    rw [List.map_cons, filterMap_progress_cons_running, ih]

theorem progSeq_chain (total : Nat) : ∀ (m i : Nat),
    List.Chain' (fun x y : Nat => x ≤ y) (progSeq total i m) := by
  intro m
  induction m with
  | zero =>
    intro i
    exact List.chain'_nil
  | succ m ih =>
    intro i
    rw [progSeq, List.chain'_cons']
    refine ⟨?_, ih (i + 1)⟩
    intro y hy
    cases m with
    | zero => simp [progSeq] at hy
    | succ m0 =>
      rw [progSeq, List.head?_cons] at hy
      have hy2 : y = (i + 1) * 100 / total := by
        simpa using hy.symm
      rw [hy2]
      exact Nat.div_le_div_right (Nat.mul_le_mul_right 100 (Nat.le_succ i))

theorem progSeq_mem {total : Nat} : ∀ {m i u : Nat}, u ∈ progSeq total i m →
    ∃ j, i ≤ j ∧ j < i + m ∧ u = j * 100 / total := by
  intro m
  induction m with
  | zero =>
    intro i u h
    simp [progSeq] at h
  | succ m ih =>
    intro i u h
    rw [progSeq] at h
    rcases List.mem_cons.mp h with h1 | h2
    · exact ⟨i, Nat.le_refl i, by omega, h1⟩
    · obtain ⟨j, hj1, hj2, hj3⟩ := ih h2
      exact ⟨j, by omega, by omega, hj3⟩

theorem chain_le_append_single {s : List Nat} {c : Nat}
    (hs : List.Chain' (fun x y : Nat => x ≤ y) s) (hb : ∀ u ∈ s, u ≤ c) :
    List.Chain' (fun x y : Nat => x ≤ y) (s ++ [c]) := by
  rw [List.chain'_append]
  refine ⟨hs, List.chain'_singleton c, ?_⟩
  intro x hx y hy
  have hy2 : y = c := by
    simpa using hy.symm
  obtain ⟨hne, hxl⟩ := List.mem_getLast?_eq_getLast hx
  rw [hy2]
  exact hb x (hxl ▸ List.getLast_mem hne)

theorem runLoop_shape (llm : LlmOracle) (total : Nat) :
    ∀ (arts : List Article) (i : Nat) (acc : List ReviewResult),
      ∃ m, m ≤ arts.length ∧
        (runLoop llm total arts i acc).updates = progSeq total i m ∧
        ((∃ rs, (runLoop llm total arts i acc).res = .ok rs) ↔
          m = arts.length) := by
  intro arts
  induction arts with
  | nil =>
    intro i acc
    exact ⟨0, Nat.le_refl 0, rfl, ⟨fun _ => rfl, fun _ => ⟨acc, rfl⟩⟩⟩
  | cons a rest ih =>
    intro i acc
    cases hpa : processArticle llm a with
    | error e =>
      refine ⟨0, Nat.zero_le _, ?_, ?_⟩
      · simp [runLoop, hpa, progSeq]
      · constructor
        · rintro ⟨rs, hrs⟩
          simp [runLoop, hpa] at hrs
        · intro h0
          simp at h0
    | ok r =>
      obtain ⟨m, hm, hupd, hiff⟩ := ih (i + 1) (accAfter r acc)
      refine ⟨m + 1, by simpa using Nat.succ_le_succ hm, ?_, ?_⟩
      · simp only [runLoop, hpa]
        rw [progSeq]
        simp [hupd]
      · simp only [runLoop, hpa]
        constructor
        · rintro ⟨rs, hrs⟩
          have hok : ∃ rs1,
              (runLoop llm total rest (i + 1) (accAfter r acc)).res =
              .ok rs1 := ⟨rs, hrs⟩
          have := hiff.mp hok
          simp [this]
        · intro hml
          have hml2 : m = rest.length := by
            simpa using hml
          exact hiff.mpr hml2

/-- C2 (amended): within a single job execution the progress values recorded
in the registry are monotonically non-decreasing, and an entry with
progress 100 either already has status done or is the running entry written
right after the last article — in which case the job's final entry is the
done entry. -/
theorem C2_progress (store : Store) (llm : LlmOracle) (date : String) :
    List.Chain' (fun x y : Nat => x ≤ y)
      ((run_review store llm date).trace.filterMap JobEntry.progress) ∧
    ∀ entry ∈ (run_review store llm date).trace,
      entry.progress = some 100 →
      entry.status = Status.done ∨
      (entry.status = Status.running ∧
        ∃ last, (run_review store llm date).trace.getLast? = some last ∧
          last.status = Status.done) := by
  by_cases hd : dateFormatOk date = true
  · cases hs : store date with
    | error e =>
      have htr : (run_review store llm date).trace =
          [runningEntry 0, failedEntry e] := by
        simp [run_review, hd, hs]
      rw [htr]
      refine ⟨?_, ?_⟩
      · show List.Chain' (fun x y : Nat => x ≤ y) [0]
        exact List.chain'_singleton 0
      · intro entry hmem hp
        simp at hmem
        rcases hmem with h | h
        · rw [h] at hp
          simp [runningEntry] at hp
        · rw [h] at hp
          simp [failedEntry] at hp
    | ok arts =>
      obtain ⟨m, hm, hupd, hiff⟩ :=
        runLoop_shape llm (max 1 arts.length) arts 1 []
      have hTpos : 0 < max 1 arts.length :=
        Nat.lt_of_lt_of_le Nat.one_pos (Nat.le_max_left 1 arts.length)
      have hb1 : ∀ u ∈ progSeq (max 1 arts.length) 1 m, u ≤ 100 := by
        intro u hu
        obtain ⟨j, hj1, hj2, hj3⟩ := progSeq_mem hu
        have hjT : j ≤ max 1 arts.length := by
          have h1 : j ≤ m := by omega
          have h2 : arts.length ≤ max 1 arts.length :=
            Nat.le_max_right 1 arts.length
          omega
        rw [hj3]
        calc j * 100 / max 1 arts.length
            ≤ max 1 arts.length * 100 / max 1 arts.length :=
              Nat.div_le_div_right (Nat.mul_le_mul_right 100 hjT)
          _ = 100 := Nat.mul_div_cancel_left 100 hTpos
      cases hres : (runLoop llm (max 1 arts.length) arts 1 []).res with
      | ok rs =>
        have htr : (run_review store llm date).trace =
            runningEntry 0 ::
              (progSeq (max 1 arts.length) 1 m).map runningEntry
              ++ [doneEntry rs.length rs] := by
          simp [run_review, hd, hs, hres, hupd]
        rw [htr]
        refine ⟨?_, ?_⟩
        · have hfm : List.filterMap JobEntry.progress
              (runningEntry 0 ::
                (progSeq (max 1 arts.length) 1 m).map runningEntry
                ++ [doneEntry rs.length rs]) =
              (0 :: progSeq (max 1 arts.length) 1 m) ++ [100] := by
            rw [List.filterMap_append, filterMap_progress_cons_running,
              filterMap_progress_map_running]
            rfl
          rw [hfm]
          refine chain_le_append_single ?_ ?_
          · rw [List.chain'_cons']
            exact ⟨fun y _ => Nat.zero_le y, progSeq_chain _ m 1⟩
          · intro u hu
            rcases List.mem_cons.mp hu with h0 | h1
            · omega
            · exact hb1 u h1
        · intro entry hmem hp
          rcases List.mem_append.mp hmem with h1 | h2
          · rcases List.mem_cons.mp h1 with h0 | hmm
            · rw [h0] at hp
              simp [runningEntry] at hp
            · obtain ⟨p, hpmem, hpe⟩ := List.mem_map.mp hmm
              refine Or.inr ⟨?_, doneEntry rs.length rs, ?_, rfl⟩
              · rw [← hpe]
                rfl
              · exact List.getLast?_concat _
          · rw [List.mem_singleton] at h2
            rw [h2]
            exact Or.inl rfl
      | error e =>
        have hmlt : m < arts.length := by
          have hne : ¬ ∃ rs, (runLoop llm (max 1 arts.length) arts 1 []).res =
              .ok rs := by
            rintro ⟨rs, hrs⟩
            rw [hres] at hrs
            exact Except.noConfusion hrs
          have hml : m ≠ arts.length := fun hml => hne (hiff.mpr hml)
          omega
        have htr : (run_review store llm date).trace =
            runningEntry 0 ::
              (progSeq (max 1 arts.length) 1 m).map runningEntry
              ++ [failedEntry e] := by
          simp [run_review, hd, hs, hres, hupd]
        rw [htr]
        refine ⟨?_, ?_⟩
        · have hfm : List.filterMap JobEntry.progress
              (runningEntry 0 ::
                (progSeq (max 1 arts.length) 1 m).map runningEntry
                ++ [failedEntry e]) =
              0 :: progSeq (max 1 arts.length) 1 m := by
            rw [List.filterMap_append, filterMap_progress_cons_running,
              filterMap_progress_map_running]
            simp [failedEntry]
          rw [hfm]
          rw [List.chain'_cons']
          exact ⟨fun y _ => Nat.zero_le y, progSeq_chain _ m 1⟩
        · intro entry hmem hp
          rcases List.mem_append.mp hmem with h1 | h2
          · rcases List.mem_cons.mp h1 with h0 | hmm
            · rw [h0] at hp
              simp [runningEntry] at hp
            · obtain ⟨p, hpmem, hpe⟩ := List.mem_map.mp hmm
              rw [← hpe] at hp
              have hp100 : p = 100 := by
                simpa [runningEntry] using hp
              obtain ⟨j, hj1, hj2, hj3⟩ := progSeq_mem hpmem
              have hjlt : j < max 1 arts.length := by
                have h2 : arts.length ≤ max 1 arts.length :=
                  Nat.le_max_right 1 arts.length
                omega
              have hlt : j * 100 / max 1 arts.length < 100 := by
                rw [Nat.div_lt_iff_lt_mul hTpos]
                calc j * 100 < max 1 arts.length * 100 :=
                      (Nat.mul_lt_mul_right (by omega)).mpr hjlt
                  _ = 100 * max 1 arts.length := Nat.mul_comm _ _
              omega
          · rw [List.mem_singleton] at h2
            rw [h2] at hp
            simp [failedEntry] at hp
  · have hd2 : dateFormatOk date = false := by
      simpa using hd
    have htr : (run_review store llm date).trace =
        [runningEntry 0, failedEntry "날짜는 YYYY-MM-DD 형식"] := by
      simp [run_review, hd2]
    rw [htr]
    refine ⟨?_, ?_⟩
    · show List.Chain' (fun x y : Nat => x ≤ y) [0]
      exact List.chain'_singleton 0
    · intro entry hmem hp
      simp at hmem
      rcases hmem with h | h
      · rw [h] at hp
        simp [runningEntry] at hp
      · rw [h] at hp
        simp [failedEntry] at hp

theorem C2_progress_witness :
    runningEntry 100 ∈ (run_review storeOne llmDefault "2024-01-15").trace ∧
    (runningEntry 100).progress = some 100 ∧
    ((runningEntry 100).status = Status.done ∨
      ((runningEntry 100).status = Status.running ∧
        ∃ last, (run_review storeOne llmDefault "2024-01-15").trace.getLast? =
          some last ∧ last.status = Status.done)) := by
  have htr : (run_review storeOne llmDefault "2024-01-15").trace =
      [runningEntry 0, runningEntry 100, doneEntry 0 []] := rfl
  have hmem : runningEntry 100 ∈
      (run_review storeOne llmDefault "2024-01-15").trace := by
    rw [htr]
    exact List.mem_cons_of_mem _ (List.mem_cons_self _ _)
  exact ⟨hmem, rfl,
    (C2_progress storeOne llmDefault "2024-01-15").2 _ hmem rfl⟩

end NewsJudge
